import Mathlib

/-!
# Verification of the breadth-generation pipeline

Shallow embedding of `generate_breadth.py`.  The file contains two merged
script variants:

* the CryptoCompare variant (`main`, `process_base`, `fetch_history_from_cc`,
  `pad_ema`, `write_pine_csv`), and
* the CoinGecko variant (the `__main__` block, `fetch_historical_prices_usd`,
  the in-line tally loop and final DataFrame).

Prices are modelled as rationals.  A pandas float cell that can be `NaN` is
modelled as `Option ℚ` (`none` = `NaN`) where only `NaN`-or-float occurs, and
by the three-valued `CellV` (`pyNone` / `pyNaN` / `pyVal q`) where Python
`None` and float `NaN` must be distinguished (the `process_base` arrays built
by `pad_ema` contain both).  Timestamps are naturals (milliseconds since the
epoch); a calendar day is its floor under division by 86400000, which models
the `strftime`/`strptime` round trip of `process_base` (exact on the UTC
midnights the data providers return).
-/

set_option maxRecDepth 1000000

/-! ## Indicator engine

`ta.trend.ema_indicator(close, w)` evaluates
`close.ewm(span=w, min_periods=w, adjust=False).mean()`: the recurrence
starts at the first close (`y 0 = x 0`,
`y (i+1) = y i + α * (x (i+1) - y i)` with `α = 2 / (w + 1)`) and the first
`w - 1` outputs are masked to `NaN` by `min_periods`. -/

/-- Tail of the `adjust=False` exponential smoothing recurrence: given the
previous smoothed value `y`, produce the smoothed value for every remaining
close. -/
def emaScan (a : ℚ) : ℚ → List ℚ → List ℚ
  | _, [] => []
  | y, x :: xs =>
    let y2 := y + a * (x - y)
    y2 :: emaScan a y2 xs

/-- Full `ewm(adjust=False).mean()` column before `min_periods` masking: the
first output equals the first close. -/
def emaRaw (a : ℚ) : List ℚ → List ℚ
  | [] => []
  | x :: xs => x :: emaScan a x xs

/-- Mask the first `k` entries of a column to `NaN` (modelled as `none`),
keeping the rest as present values.  This is the `min_periods = k + 1`
masking of pandas `ewm` on a `NaN`-free input column. -/
def maskFirst : Nat → List ℚ → List (Option ℚ)
  | _, [] => []
  | 0, x :: xs => some x :: maskFirst 0 xs
  | k + 1, _ :: xs => none :: maskFirst k xs

/-- The model of `ta.trend.ema_indicator(closes, w)`: a column aligned with
`closes` whose first `w - 1` entries are `NaN` and whose remaining entries
follow the `adjust=False` recurrence seeded at the first close. -/
def emaIndicator (w : Nat) (closes : List ℚ) : List (Option ℚ) :=
  maskFirst (w - 1) (emaRaw (2 / (w + 1 : ℚ)) closes)

/-! ## CryptoCompare variant: cells, `pad_ema` and `process_base` -/

/-- A cell of the `ema75_arr` / `ema200_arr` lists of `process_base`: Python
`None` (from the `pad_ema` padding), float `NaN` (from the masked head of the
`ta` output, carried through `.tolist()`), or a float value. -/
inductive CellV where
  | pyNone
  | pyNaN
  | pyVal (q : ℚ)
  deriving DecidableEq

/-- The `.tolist()` of a `ta.trend.ema_indicator` column as passed to
`pad_ema`: `NaN` cells and value cells. -/
def emaCells (w : Nat) (closes : List ℚ) : List CellV :=
  (emaIndicator w closes).map fun e =>
    match e with
    | none => CellV.pyNaN
    | some q => CellV.pyVal q

/-- Source `pad_ema(arr, period)`: prepend `period - 1` entries of `None`.
(The docstring of the source assumes `arr` has length `N - (period - 1)`, but
`process_base` passes it the full length-`N` `ta` output, so the result has
length `N + period - 1`.) -/
def pad_ema (arr : List CellV) (period : Nat) : List CellV :=
  List.replicate (period - 1) CellV.pyNone ++ arr

/-- Python `e is not None`. -/
def isNotNone : CellV → Bool
  | CellV.pyNone => false
  | _ => true

/-- Python `c > e` for a float cell `e`: strict greater-than, and `False`
whenever `e` is `NaN`.  (`process_base` only evaluates it under an
`is not None` guard, so the `pyNone` branch is unreachable there.) -/
def cGT (c : ℚ) : CellV → Bool
  | CellV.pyVal v => decide (v < c)
  | _ => false

/-- Association-list model of a Python dict with `Nat` keys: lookup. -/
def dictGet {β : Type} : List (Nat × β) → Nat → Option β
  | [], _ => none
  | (k, v) :: rest, t => if k = t then some v else dictGet rest t

/-- Association-list model of a Python dict with `Nat` keys: `d[k] = v`
replaces the binding in place if the key exists, else appends it (Python
dicts preserve insertion order). -/
def dictSet {β : Type} : List (Nat × β) → Nat → β → List (Nat × β)
  | [], t, r => [(t, r)]
  | (k, v) :: rest, t, r => if k = t then (k, r) :: rest else (k, v) :: dictSet rest t r

/-- A row of the `breadth` dict of the CryptoCompare variant, as the tuple
`(a75, t75, a200, t200)`. -/
abbrev BRow : Type := Nat × Nat × Nat × Nat

/-- The `breadth` dict: calendar day ↦ `(a75, t75, a200, t200)`. -/
abbrev Breadth : Type := List (Nat × BRow)

/-- Body of the tally loop of `process_base` for one bar: create the zero row
if the date is new, then bump `t75`/`a75` when `e75 is not None` and
`t200`/`a200` when `e200 is not None`, using strict `c > e`. -/
def pbStep (b : Breadth) (date : Nat) (c : ℚ) (e75 e200 : CellV) : Breadth :=
  let r0 : BRow := (dictGet b date).getD (0, 0, 0, 0)
  let r1 : BRow :=
    if isNotNone e75 then
      (r0.1 + (if cGT c e75 then 1 else 0), r0.2.1 + 1, r0.2.2.1, r0.2.2.2)
    else r0
  let r2 : BRow :=
    if isNotNone e200 then
      (r1.1, r1.2.1, r1.2.2.1 + (if cGT c e200 then 1 else 0), r1.2.2.2 + 1)
    else r1
  dictSet b date r2

/-- The `for i, date in enumerate(dates)` loop of `process_base`, with the
per-index reads `ema75_arr[i]`, `ema200_arr[i]`, `closes[i]` made explicit. -/
def pbLoop (b : Breadth) (dates : List Nat) (closes : List ℚ)
    (e75s e200s : List CellV) : Breadth :=
  (List.range dates.length).foldl
    (fun acc i =>
      pbStep acc (dates.getD i 0) (closes.getD i 0)
        (e75s.getD i CellV.pyNone) (e200s.getD i CellV.pyNone)) b

/-- Source `process_base(base)` (CryptoCompare variant), as a function of the
fetched history: skip when the frame is empty or shorter than 200 rows, else
compute both padded EMA arrays and fold every bar into the breadth dict.
Dates are the bar timestamps floored to calendar days. -/
def process_base (b : Breadth) (times : List Nat) (closes : List ℚ) : Breadth :=
  if closes.isEmpty || closes.length < 200 then b
  else
    pbLoop b (times.map (· / 86400000)) closes
      (pad_ema (emaCells 75 closes) 75) (pad_ema (emaCells 200 closes) 200)

/-- The `pool.map(process_base, bases)` accumulation of `main`: fold every
fetched symbol history into the shared breadth dict. -/
def mainBreadth (hists : List (List Nat × List ℚ)) : Breadth :=
  hists.foldl (fun b h => process_base b h.1 h.2) []

/-- Python `round(x, 2)` on the emitted percentage.  Ties between two
two-decimal neighbours (irrelevant for every property proved here) are
resolved by nearest-integer rounding of `100 * x`. -/
def round2 (q : ℚ) : ℚ := ((round (q * 100) : ℤ) : ℚ) / 100

/-- Percentage with the zero-total guard of `main`:
`a / t * 100 if t > 0 else 0.0`. -/
def guardedPct (a t : Nat) : ℚ :=
  if 0 < t then (a : ℚ) / t * 100 else 0

/-- Day number of 2024-01-01, the `OUTPUT_START` of the CryptoCompare
variant (1704067200 seconds since the epoch, divided by 86400). -/
def OUTPUT_START_DAY : Nat := 19723

/-- The two series built by `main` from the breadth dict: dates at or after
the output start, ascending, each mapped back to a millisecond timestamp and
the rounded, zero-guarded percentage of its bucket. -/
def mainSeries (b : Breadth) (outStart : Nat) : List (Nat × ℚ) × List (Nat × ℚ) :=
  let all_dates := List.insertionSort (· ≤ ·) ((b.map Prod.fst).filter (fun d => outStart ≤ d))
  ( all_dates.map fun d =>
      let e : BRow := (dictGet b d).getD (0, 0, 0, 0)
      (d * 86400000, round2 (guardedPct e.1 e.2.1))
  , all_dates.map fun d =>
      let e : BRow := (dictGet b d).getD (0, 0, 0, 0)
      (d * 86400000, round2 (guardedPct e.2.2.1 e.2.2.2)) )

/-- The stablecoin exclusion set of the CryptoCompare variant. -/
def STABLES_CC : List String :=
  ["USDT", "USDC", "BUSD", "DAI", "TUSD", "USDP", "USDD", "USTC", "FRAX", "FEI", "USX", "EURT"]

/-- End-to-end `main()` of the CryptoCompare variant as a function of the
resolved universe and the per-symbol fetched histories.  There is no
empty-universe abort: with zero bases the fold is empty and the two CSV
files are still written (with only their header rows), so the run always
completes with output. -/
def mainRun (bases : List String) (histFor : String → List Nat × List ℚ) :
    Except String (List (Nat × ℚ) × List (Nat × ℚ)) :=
  Except.ok (mainSeries (mainBreadth (bases.map histFor)) OUTPUT_START_DAY)

/-- One CryptoCompare `histoday` HTTP exchange, as seen by
`fetch_history_from_cc`: transport failure flag, status code, JSON
parsability, and the parsed `Data.Data` daily bars (time in seconds,
close). -/
structure CCResp where
  netError : Bool
  status : Nat
  validJson : Bool
  bars : List (Nat × ℚ)
  deriving DecidableEq

/-- Source `fetch_history_from_cc(base)` as a function of the single HTTP
response it issues; the second component is the number of HTTP requests made
(always one: a 429 is not retried, it returns the empty frame and the caller
skips the symbol).  Bars are converted from seconds to milliseconds. -/
def fetch_history_from_cc (resp : CCResp) : List (Nat × ℚ) × Nat :=
  if resp.netError then ([], 1)
  else if resp.status = 401 then ([], 1)
  else if resp.status = 429 then ([], 1)
  else if !resp.validJson then ([], 1)
  else if resp.bars.isEmpty then ([], 1)
  else (resp.bars.map (fun bar => (bar.1 * 1000, bar.2)), 1)

/-! ## CoinGecko variant: samples, tally loop, final DataFrame -/

/-- One zipped row of the tally loop of the CoinGecko `__main__` block:
`zip(hist["time"], hist["a75"], hist["a200"], hist["ema200"])`.  The flags
are the 0/1 integers produced by `.astype(int)`; `e200` is the (possibly
`NaN`) ema200 cell that gates the row. -/
structure Sample where
  tm : Nat
  a75 : Nat
  a200 : Nat
  e200 : Option ℚ
  deriving DecidableEq

/-- Pandas `(close > ema).astype(int)` for one cell: strict greater-than,
with `close > NaN` evaluating to `False`, hence 0. -/
def aboveInt (c : ℚ) (e : Option ℚ) : Nat :=
  match e with
  | some v => if v < c then 1 else 0
  | none => 0

/-- The zipped rows of the tally loop, from the four columns.  All four
columns have the length of `times` in the script; the zip is written as a
map over the index range. -/
def mkSamplesWith (times : List Nat) (closes : List ℚ)
    (e75s e200s : List (Option ℚ)) : List Sample :=
  (List.range times.length).map fun i =>
    { tm := times.getD i 0
      a75 := aboveInt (closes.getD i 0) (e75s.getD i none)
      a200 := aboveInt (closes.getD i 0) (e200s.getD i none)
      e200 := e200s.getD i none }

/-- The zipped rows of the tally loop for one symbol, with the two EMA
columns computed from the close column as in the script
(`hist["ema75"]`, `hist["ema200"]`, `hist["a75"]`, `hist["a200"]`). -/
def mkSamples (times : List Nat) (closes : List ℚ) : List Sample :=
  mkSamplesWith times closes (emaIndicator 75 closes) (emaIndicator 200 closes)

/-- A row of the `rows` dict of the CoinGecko variant, as the tuple
`(n, p75, p200)`. -/
abbrev MRow : Type := Nat × Nat × Nat

/-- The `rows` dict: timestamp (ms) ↦ `(n, p75, p200)`. -/
abbrev Rows : Type := List (Nat × MRow)

/-- Body of the CoinGecko tally loop for one zipped row: skip the row when
`pd.isna(e200)`, else create the zero row if needed and bump the shared
total `n` and the two above-counters. -/
def tallyStep (rows : Rows) (s : Sample) : Rows :=
  if s.e200.isNone then rows
  else
    let r : MRow := (dictGet rows s.tm).getD (0, 0, 0)
    dictSet rows s.tm (r.1 + 1, r.2.1 + s.a75, r.2.2 + s.a200)

/-- The tally loop over all zipped rows of one symbol. -/
def tallySamples (rows : Rows) (ss : List Sample) : Rows :=
  ss.foldl tallyStep rows

/-- Outcome of the guarded per-symbol fetch in the CoinGecko main loop: the
symbol had no CoinGecko id, the fetch raised (`PermissionError`,
`RuntimeError`, or any other exception — each `continue`s), or a history
frame was returned. -/
inductive FetchOutcome where
  | noId
  | permFail
  | rateFail
  | otherFail
  | ok (hist : List (Nat × ℚ))
  deriving DecidableEq

/-- One iteration of the CoinGecko main loop: failures and histories shorter
than 200 days are skipped before indicator computation; otherwise the
symbol's zipped rows are folded into the shared `rows` dict. -/
def symbolStep (rows : Rows) (f : FetchOutcome) : Rows :=
  match f with
  | FetchOutcome.ok hist =>
    if hist.isEmpty || hist.length < 200 then rows
    else tallySamples rows (mkSamples (hist.map Prod.fst) (hist.map Prod.snd))
  | _ => rows

/-- The whole CoinGecko symbol loop: fold every fetch outcome into the
initially empty `rows` dict. -/
def tallyRun (fs : List FetchOutcome) : Rows :=
  fs.foldl symbolStep []

/-- The `sorted(rows.keys())` of the final-DataFrame step. -/
def sortedTimes (rows : Rows) : List Nat :=
  List.insertionSort (· ≤ ·) (rows.map Prod.fst)

/-- Unguarded percentage of the CoinGecko final DataFrame:
`rows[t][p] / rows[t][n] * 100`. -/
def pctOf (p n : Nat) : ℚ := (p : ℚ) / n * 100

/-- The final daily DataFrame of the CoinGecko variant: empty when no
breadth data was tallied (only headers are written), else one row per
sorted timestamp with both percentages. -/
def dailyFrame (rows : Rows) : List (Nat × ℚ × ℚ) :=
  if rows.isEmpty then []
  else
    (sortedTimes rows).map fun t =>
      let r : MRow := (dictGet rows t).getD (0, 0, 0)
      (t, pctOf r.2.1 r.1, pctOf r.2.2 r.1)

/-- Rows of `data/BR75.csv` (time and value columns; the writer duplicates
the value into open/high/low/close and zero-fills volume). -/
def csv75 (rows : Rows) : List (Nat × ℚ) :=
  (dailyFrame rows).map fun x => (x.1, x.2.1)

/-- Rows of `data/BR200.csv`. -/
def csv200 (rows : Rows) : List (Nat × ℚ) :=
  (dailyFrame rows).map fun x => (x.1, x.2.2)

/-- The stablecoin exclusion set of the CoinGecko variant. -/
def STABLES_CG : List String :=
  ["USDT", "USDC", "FDUSD", "TUSD", "DAI", "USDP", "BUSD", "USDD",
   "AEUR", "XUSD", "USD1", "PYUSD", "PAXG", "WBTC", "WBETH"]

/-- End-to-end CoinGecko `__main__` as a function of the resolved base list
and the per-symbol fetch outcomes: filter out stablecoins, abort the run
(`sys.exit`) when nothing is left — before any fetching or file writing —
else tally every base and emit both CSV row lists. -/
def cgRun (allBases : List String) (fetchFor : String → FetchOutcome) :
    Except String (List (Nat × ℚ) × List (Nat × ℚ)) :=
  let bases := allBases.filter fun b => !(STABLES_CG.contains b)
  if bases.isEmpty then
    Except.error "No symbols left after filtering; aborting."
  else
    let rows := tallyRun (bases.map fetchFor)
    Except.ok (csv75 rows, csv200 rows)

/-- One CoinGecko `market_chart/range` HTTP exchange as seen by
`fetch_historical_prices_usd`: status code, whether the content type starts
with `application/json`, and the parsed `prices` array (ms timestamp,
close). -/
structure CGResp where
  status : Nat
  jsonCT : Bool
  prices : List (Nat × ℚ)
  deriving DecidableEq

/-- Failure modes of `fetch_historical_prices_usd`: `PermissionError` (401),
`RuntimeError` (429 persisted after the one retry), an exception raised by
`raise_for_status`, or the silent `None` return that falls out of the
function when `raise_for_status` does not raise (2xx non-JSON, 3xx). -/
inductive FetchErr where
  | permDenied
  | ratePersisted
  | httpStatus (code : Nat)
  | pyNoneReturn
  deriving DecidableEq

/-- Calendar day of a millisecond timestamp (`.dt.floor("D")`). -/
def dayOfMs (t : Nat) : Nat := t / 86400000

/-- The `groupby(day).agg({time: last, close: last})` collapse of the raw
`prices` array to one bar per calendar day, days ascending (pandas groupby
sorts its keys). -/
def dailyLast (prices : List (Nat × ℚ)) : List (Nat × ℚ) :=
  let days := List.insertionSort (· ≤ ·) ((prices.map fun p => dayOfMs p.1).dedup)
  days.map fun d => ((prices.filter fun p => dayOfMs p.1 = d).getLast?).getD (0, 0)

/-- Python `resp.raise_for_status()` at the tail of
`fetch_historical_prices_usd`: raises for a 4xx/5xx status, otherwise
returns `None`, which makes the enclosing function return `None`. -/
def raiseForStatus (status : Nat) : Except FetchErr (List (Nat × ℚ)) :=
  if 400 ≤ status then Except.error (FetchErr.httpStatus status)
  else Except.error FetchErr.pyNoneReturn

/-- Source `fetch_historical_prices_usd`, as a function of the first
response and of the response a retry would get.  The second component
counts the HTTP requests issued: one on the non-429 paths, two when the
single 429 retry (after a 5 s sleep) fires.  A successful (200, JSON)
response — first or retried — is collapsed to daily bars and returned with
no error. -/
def fetch_historical_prices_usd (r1 r2 : CGResp) :
    Except FetchErr (List (Nat × ℚ)) × Nat :=
  if r1.status = 200 && r1.jsonCT then
    (Except.ok (dailyLast r1.prices), 1)
  else if r1.status = 401 then
    (Except.error FetchErr.permDenied, 1)
  else if r1.status = 429 then
    if r2.status = 200 && r2.jsonCT then
      (Except.ok (dailyLast r2.prices), 2)
    else if r2.status = 429 then
      (Except.error FetchErr.ratePersisted, 2)
    else (raiseForStatus r2.status, 2)
  else (raiseForStatus r1.status, 1)

/-! ## Specification-side definitions used to state the claims -/

/-- Arithmetic mean of a list of closes (the seed value the specification
asserts for the first present EMA entry). -/
def arithMean (l : List ℚ) : ℚ := l.sum / l.length

/-- First present value asserted by the amended claim: the `adjust=False`
recurrence over the first `w` closes, seeded at the first close. -/
def specFirstEma (w : Nat) (closes : List ℚ) : Option ℚ :=
  match closes with
  | [] => none
  | x :: xs => some ((xs.take (w - 1)).foldl (fun y z => y + (2 / (w + 1 : ℚ)) * (z - y)) x)

/-- Per-timestamp contributions of a zipped-row list, as asserted by the
aggregation claim: exactly the rows whose `ema200` is present and whose
timestamp matches contribute, each as `(1, a75, a200)`. -/
def contribT (ss : List Sample) (t : Nat) : List MRow :=
  (ss.filter fun s => s.e200.isSome && s.tm == t).map fun s => (1, s.a75, s.a200)

/-- Merge a list of additive contributions into an optional dict entry:
no contribution leaves the entry alone, otherwise the contributions are
added onto the (zero-defaulted) entry. -/
def mergeAt {M : Type} [AddCommMonoid M] (acc : Option M) (l : List M) : Option M :=
  if l.isEmpty then acc else some (acc.getD 0 + l.sum)

/-- Per-symbol contributions at a timestamp for one fetch outcome: nothing
for failed or short fetches, the zipped-row contributions otherwise. -/
def symContribT (f : FetchOutcome) (t : Nat) : List MRow :=
  match f with
  | FetchOutcome.ok hist =>
    if hist.isEmpty || hist.length < 200 then []
    else contribT (mkSamples (hist.map Prod.fst) (hist.map Prod.snd)) t
  | _ => []

/-! ## Concrete inputs for witnesses and counterexamples -/

/-- 200 consecutive UTC midnights starting at the epoch. -/
def times200 : List Nat := (List.range 200).map (· * 86400000)

/-- 200 consecutive UTC midnights starting at 2024-01-01. -/
def times2024 : List Nat := (List.range 200).map fun i => (OUTPUT_START_DAY + i) * 86400000

/-- A 200-day constant close series. -/
def ones200 : List ℚ := List.replicate 200 1

/-- A 200-day close series that is 1 everywhere except a spike to 2 on day
74 (the first day on which ema75 is defined). -/
def spike200 : List ℚ := List.replicate 74 1 ++ 2 :: List.replicate 125 1

/-- A 75-day close series starting at 1 and then constantly 0: its
arithmetic mean is 1/75 while the recurrence-seeded EMA at day 74 is
(37/38) ^ 74. -/
def c2closes : List ℚ := 1 :: List.replicate 74 0

/-- A 200-day constant-price history frame for the CoinGecko loop. -/
def constHist200 : List (Nat × ℚ) := (List.range 200).map fun i => (i, (1 : ℚ))

/-- The all-zero output series produced by the CryptoCompare variant on a
single constant-price symbol starting 2024-01-01. -/
def zeroSeries200 : List (Nat × ℚ) :=
  (List.range 200).map fun i => ((OUTPUT_START_DAY + i) * 86400000, (0 : ℚ))

/-- The additive contribution of one `process_base` bar to its date's
breadth row: each indicator bumps its total when its cell is not `None` and
its above-count when additionally `c > e`. -/
def pbQuad (c : ℚ) (e75 e200 : CellV) : BRow :=
  ( (if isNotNone e75 && cGT c e75 then 1 else 0)
  , (if isNotNone e75 then 1 else 0)
  , (if isNotNone e200 && cGT c e200 then 1 else 0)
  , (if isNotNone e200 then 1 else 0) )

/-- All contributions of one symbol's bars to the breadth row of day `d`:
one quad per loop index whose date matches `d`. -/
def pbContrib (dates : List Nat) (closes : List ℚ) (e75s e200s : List CellV) (d : Nat) :
    List BRow :=
  ((List.range dates.length).filter fun i => dates.getD i 0 == d).map fun i =>
    pbQuad (closes.getD i 0) (e75s.getD i CellV.pyNone) (e200s.getD i CellV.pyNone)

/-- Per-symbol contributions of one fetched history to day `d`, including
the short-history skip of `process_base`. -/
def histContrib (h : List Nat × List ℚ) (d : Nat) : List BRow :=
  if h.2.isEmpty || h.2.length < 200 then []
  else
    pbContrib (h.1.map (· / 86400000)) h.2
      (pad_ema (emaCells 75 h.2) 75) (pad_ema (emaCells 200 h.2) 200) d

/-! ## Dict lemmas -/

theorem dictGet_dictSet {β : Type} (rows : List (Nat × β)) (t : Nat) (r : β) (u : Nat) :
    dictGet (dictSet rows t r) u = if u = t then some r else dictGet rows u := by
  induction rows with
  | nil =>
    by_cases h : u = t
    · simp [dictSet, dictGet, h]
    · simp [dictSet, dictGet, h, show ¬ t = u by omega]
  | cons kv rest ih =>
    obtain ⟨k, v⟩ := kv
    by_cases hk : k = t
    · subst hk
      by_cases hu : u = k
      · subst hu
        simp [dictSet, dictGet]
      · simp [dictSet, dictGet, hu, show ¬ k = u by omega]
    · by_cases hu : k = u
      · subst hu
        simp [dictSet, dictGet, hk, ih, show ¬ k = t by omega, show ¬ t = k by omega]
      · simp [dictSet, dictGet, hk, hu, ih]

theorem dictGet_isSome_iff_mem {β : Type} (rows : List (Nat × β)) (t : Nat) :
    (dictGet rows t).isSome = true ↔ t ∈ rows.map Prod.fst := by
  induction rows with
  | nil => simp [dictGet]
  | cons kv rest ih =>
    obtain ⟨k, v⟩ := kv
    by_cases hk : k = t
    · subst hk
      simp [dictGet]
    · simp [dictGet, hk, ih, Ne.symm hk]

/-- An invariant on stored values is preserved by a dict update whose new
value satisfies it. -/
theorem dictGet_dictSet_invariant {β : Type} {P : β → Prop} {rows : List (Nat × β)}
    (hrows : ∀ t r, dictGet rows t = some r → P r)
    {t0 : Nat} {newr : β} (hnew : P newr) :
    ∀ t r, dictGet (dictSet rows t0 newr) t = some r → P r := by
  intro t r hget
  rw [dictGet_dictSet] at hget
  by_cases ht : t = t0
  · simp [ht] at hget
    exact hget ▸ hnew
  · simp [ht] at hget
    exact hrows t r hget

/-! ## maskFirst and EMA lemmas -/

theorem emaScan_length (a : ℚ) (y : ℚ) (xs : List ℚ) :
    (emaScan a y xs).length = xs.length := by
  induction xs generalizing y with
  | nil => simp [emaScan]
  | cons x xs ih => simp [emaScan, ih]

theorem emaRaw_length (a : ℚ) (xs : List ℚ) : (emaRaw a xs).length = xs.length := by
  cases xs with
  | nil => simp [emaRaw]
  | cons x xs => simp [emaRaw, emaScan_length]

theorem maskFirst_length (k : Nat) (l : List ℚ) : (maskFirst k l).length = l.length := by
  induction l generalizing k with
  | nil => simp [maskFirst]
  | cons x xs ih =>
    cases k with
    | zero => simp [maskFirst, ih]
    | succ k => simp [maskFirst, ih]

theorem emaIndicator_length (w : Nat) (closes : List ℚ) :
    (emaIndicator w closes).length = closes.length := by
  simp [emaIndicator, maskFirst_length, emaRaw_length]

theorem maskFirst_getD_of_lt (k : Nat) (l : List ℚ) (i : Nat) (h : i < k) :
    (maskFirst k l).getD i none = none := by
  induction l generalizing k i with
  | nil => simp [maskFirst]
  | cons x xs ih =>
    cases k with
    | zero => omega
    | succ k =>
      cases i with
      | zero => simp [maskFirst]
      | succ i => simpa [maskFirst] using ih k i (by omega)

theorem maskFirst_get?_self (k : Nat) (l : List ℚ) :
    (maskFirst k l).get? k = (l.get? k).map some := by
  induction l generalizing k with
  | nil => simp [maskFirst]
  | cons x xs ih =>
    cases k with
    | zero => simp [maskFirst]
    | succ k => simpa [maskFirst] using ih k

theorem maskFirst_countP (k : Nat) (l : List ℚ) :
    (maskFirst k l).countP (fun e => e.isSome) = l.length - k := by
  induction l generalizing k with
  | nil => simp [maskFirst]
  | cons x xs ih =>
    cases k with
    | zero =>
      have h0 := ih 0
      simp only [maskFirst, List.countP_cons] at h0 ⊢
      simp [h0]
    | succ k =>
      have hk := ih k
      simp only [maskFirst, List.countP_cons] at hk ⊢
      simp [hk]

theorem emaScan_get? (a : ℚ) (xs : List ℚ) (j : Nat) (y : ℚ) (h : j < xs.length) :
    (emaScan a y xs).get? j =
      some ((xs.take (j + 1)).foldl (fun yp x => yp + a * (x - yp)) y) := by
  induction xs generalizing j y with
  | nil => simp at h
  | cons x xs ih =>
    cases j with
    | zero => simp [emaScan]
    | succ j =>
      have hj : j < xs.length := by simpa using h
      simpa [emaScan, List.take_succ_cons] using ih j (y + a * (x - y)) hj

theorem emaScan_const (a : ℚ) (c : ℚ) (m : Nat) :
    emaScan a c (List.replicate m c) = List.replicate m c := by
  induction m with
  | zero => simp [emaScan]
  | succ m ih =>
    simp only [List.replicate_succ, emaScan]
    rw [show c + a * (c - c) = c by ring]
    simp [ih]

theorem emaRaw_const (a : ℚ) (c : ℚ) (n : Nat) :
    emaRaw a (List.replicate n c) = List.replicate n c := by
  cases n with
  | zero => simp [emaRaw]
  | succ n => simp [List.replicate_succ, emaRaw, emaScan_const]

theorem emaIndicator_replicate_getD (w : Nat) (n : Nat) (c : ℚ) (i : Nat) :
    (emaIndicator w (List.replicate n c)).getD i none =
      if i < w - 1 ∨ n ≤ i then none else some c := by
  have hmask : emaIndicator w (List.replicate n c) = maskFirst (w - 1) (List.replicate n c) := by
    simp [emaIndicator, emaRaw_const]
  rw [hmask]
  by_cases hi : i < w - 1
  · rw [if_pos (Or.inl hi)]
    exact maskFirst_getD_of_lt _ _ _ hi
  · by_cases hn : n ≤ i
    · have hlen : (maskFirst (w - 1) (List.replicate n c)).length ≤ i := by
        rw [maskFirst_length, List.length_replicate]
        exact hn
      rw [if_pos (Or.inr hn)]
      exact List.getD_eq_default _ _ hlen
    · push_neg at hn
      -- i is within range and at or beyond the mask: induction to the value
      have : ∀ (k i n : Nat), k ≤ i → i < n →
          (maskFirst k (List.replicate n c)).getD i none = some c := by
        intro k
        induction k with
        | zero =>
          intro i
          induction i with
          | zero =>
            intro n _ hn2
            cases n with
            | zero => omega
            | succ n => simp [List.replicate_succ, maskFirst]
          | succ i ih2 =>
            intro n _ hn2
            cases n with
            | zero => omega
            | succ n =>
              simp only [List.replicate_succ, maskFirst, List.getD_cons_succ]
              exact ih2 n (by omega) (by omega)
        | succ k ihk =>
          intro i n hk hn2
          cases n with
          | zero => omega
          | succ n =>
            cases i with
            | zero => omega
            | succ i =>
              simp only [List.replicate_succ, maskFirst, List.getD_cons_succ]
              exact ihk i n (by omega) (by omega)
      rw [if_neg (by omega : ¬ (i < w - 1 ∨ n ≤ i))]
      exact this (w - 1) i n (by omega) hn

/-! ## Merge characterisation of the CoinGecko tally -/

theorem mergeAt_nil {M : Type} [AddCommMonoid M] (acc : Option M) : mergeAt acc [] = acc := by
  simp [mergeAt]

theorem mergeAt_append {M : Type} [AddCommMonoid M] (acc : Option M) (l1 l2 : List M) :
    mergeAt (mergeAt acc l1) l2 = mergeAt acc (l1 ++ l2) := by
  cases l1 with
  | nil => simp [mergeAt]
  | cons x xs =>
    cases l2 with
    | nil => simp [mergeAt]
    | cons y ys => simp [mergeAt, List.sum_append, add_assoc]

theorem mergeAt_perm {M : Type} [AddCommMonoid M] (acc : Option M) {l1 l2 : List M}
    (h : l1.Perm l2) : mergeAt acc l1 = mergeAt acc l2 := by
  have hlen := h.length_eq
  have hemp : l1.isEmpty = l2.isEmpty := by
    cases l1 <;> cases l2 <;> simp_all
  rw [mergeAt, mergeAt, hemp, h.sum_eq]

theorem dictGet_tallySamples (ss : List Sample) (rows : Rows) (t : Nat) :
    dictGet (tallySamples rows ss) t = mergeAt (dictGet rows t) (contribT ss t) := by
  induction ss generalizing rows with
  | nil => simp [tallySamples, contribT, mergeAt]
  | cons s ss ih =>
    have hstep : tallySamples rows (s :: ss) = tallySamples (tallyStep rows s) ss := rfl
    rw [hstep, ih]
    by_cases hgate : s.e200.isSome = true ∧ s.tm = t
    · obtain ⟨h200, htm⟩ := hgate
      obtain ⟨v, hv⟩ := Option.isSome_iff_exists.mp h200
      have hcons : contribT (s :: ss) t = (1, s.a75, s.a200) :: contribT ss t := by
        simp [contribT, hv, htm]
      have hget : dictGet (tallyStep rows s) t =
          some (((dictGet rows t).getD (0, 0, 0)) + (1, s.a75, s.a200)) := by
        simp only [tallyStep, hv, Option.isNone_some, Bool.false_eq_true, if_false]
        rw [← htm, dictGet_dictSet, if_pos rfl, htm]
        rfl
      rw [hcons, hget]
      cases hrem : contribT ss t with
      | nil => simp [mergeAt]
      | cons z zs => simp [mergeAt, add_assoc]
    · have hskip : contribT (s :: ss) t = contribT ss t := by
        rcases Decidable.em (s.e200.isSome = true) with h200 | h200
        · have htm : ¬ s.tm = t := fun h => hgate ⟨h200, h⟩
          simp [contribT, htm]
        · simp only [contribT, List.filter_cons]
          rw [if_neg (by simp [h200])]
      have hget : dictGet (tallyStep rows s) t = dictGet rows t := by
        rcases Decidable.em (s.e200.isSome = true) with h200 | h200
        · have htm : ¬ s.tm = t := fun h => hgate ⟨h200, h⟩
          obtain ⟨v, hv⟩ := Option.isSome_iff_exists.mp h200
          simp only [tallyStep, hv, Option.isNone_some, Bool.false_eq_true, if_false]
          rw [dictGet_dictSet, if_neg (by omega)]
        · have hv : s.e200 = none := by
            cases he : s.e200
            · rfl
            · rw [he] at h200
              simp at h200
          simp [tallyStep, hv]
      rw [hskip, hget]

theorem dictGet_symbolStep (rows : Rows) (f : FetchOutcome) (t : Nat) :
    dictGet (symbolStep rows f) t = mergeAt (dictGet rows t) (symContribT f t) := by
  cases f with
  | ok hist =>
    simp only [symbolStep, symContribT]
    by_cases hg : hist.isEmpty || hist.length < 200
    · simp [hg, mergeAt]
    · simp only [hg, if_false, Bool.false_eq_true]
      exact dictGet_tallySamples _ _ _
  | noId => simp [symbolStep, symContribT, mergeAt]
  | permFail => simp [symbolStep, symContribT, mergeAt]
  | rateFail => simp [symbolStep, symContribT, mergeAt]
  | otherFail => simp [symbolStep, symContribT, mergeAt]

theorem dictGet_foldl_symbolStep (fs : List FetchOutcome) (rows : Rows) (t : Nat) :
    dictGet (fs.foldl symbolStep rows) t =
      mergeAt (dictGet rows t) (fs.flatMap fun f => symContribT f t) := by
  induction fs generalizing rows with
  | nil => simp [mergeAt]
  | cons f fs ih =>
    have : (f :: fs).foldl symbolStep rows = fs.foldl symbolStep (symbolStep rows f) := rfl
    rw [this, ih, dictGet_symbolStep, mergeAt_append, List.flatMap_cons]

theorem dictGet_tallyRun (fs : List FetchOutcome) (t : Nat) :
    dictGet (tallyRun fs) t = mergeAt none (fs.flatMap fun f => symContribT f t) := by
  have := dictGet_foldl_symbolStep fs [] t
  simpa [tallyRun, dictGet] using this

/-! ## Bounds on tally contributions (CoinGecko variant) -/

theorem aboveInt_le_one (c : ℚ) (e : Option ℚ) : aboveInt c e ≤ 1 := by
  cases e with
  | none => simp [aboveInt]
  | some v =>
    simp only [aboveInt]
    split <;> omega

theorem mkSamples_flags (times : List Nat) (closes : List ℚ) :
    ∀ s ∈ mkSamples times closes, s.a75 ≤ 1 ∧ s.a200 ≤ 1 := by
  intro s hs
  simp only [mkSamples, mkSamplesWith, List.mem_map] at hs
  obtain ⟨i, _, hi⟩ := hs
  subst hi
  exact ⟨aboveInt_le_one _ _, aboveInt_le_one _ _⟩

theorem symContribT_bounds (f : FetchOutcome) (t : Nat) :
    ∀ x ∈ symContribT f t, x.1 = 1 ∧ x.2.1 ≤ 1 ∧ x.2.2 ≤ 1 := by
  intro x hx
  cases f with
  | ok hist =>
    simp only [symContribT] at hx
    by_cases hg : hist.isEmpty || hist.length < 200
    · simp [hg] at hx
    · simp only [hg, if_false, Bool.false_eq_true, contribT, List.mem_map,
        List.mem_filter] at hx
      obtain ⟨s, ⟨hmem, _⟩, hs⟩ := hx
      have := mkSamples_flags _ _ s hmem
      subst hs
      exact ⟨rfl, this.1, this.2⟩
  | noId => simp [symContribT] at hx
  | permFail => simp [symContribT] at hx
  | rateFail => simp [symContribT] at hx
  | otherFail => simp [symContribT] at hx

theorem sum_contrib_bounds (L : List MRow)
    (h : ∀ x ∈ L, x.1 = 1 ∧ x.2.1 ≤ 1 ∧ x.2.2 ≤ 1) :
    L.sum.2.1 ≤ L.sum.1 ∧ L.sum.2.2 ≤ L.sum.1 ∧ (L ≠ [] → 1 ≤ L.sum.1) := by
  induction L with
  | nil => simp
  | cons x xs ih =>
    obtain ⟨hx1, hx2, hx3⟩ := h x (List.mem_cons_self x xs)
    have ihx := ih fun y hy => h y (List.mem_cons_of_mem x hy)
    simp only [List.sum_cons, Prod.fst_add, Prod.snd_add]
    refine ⟨by omega, by omega, fun _ => by omega⟩

/-- Master invariant of the CoinGecko tally: every stored row has
count-above at most the shared count-total, and count-total at least one. -/
theorem tallyRun_entry_bounds (fs : List FetchOutcome) (t : Nat) (r : MRow)
    (h : dictGet (tallyRun fs) t = some r) :
    r.2.1 ≤ r.1 ∧ r.2.2 ≤ r.1 ∧ 1 ≤ r.1 := by
  rw [dictGet_tallyRun] at h
  by_cases hemp : (fs.flatMap fun f => symContribT f t).isEmpty
  · rw [mergeAt, if_pos hemp] at h
    cases h
  · rw [mergeAt, if_neg hemp] at h
    have hr : r = (fs.flatMap fun f => symContribT f t).sum := by
      have := Option.some_injective _ h
      simpa using this.symm
    have hb : ∀ x ∈ (fs.flatMap fun f => symContribT f t), x.1 = 1 ∧ x.2.1 ≤ 1 ∧ x.2.2 ≤ 1 := by
      intro x hx
      rw [List.mem_flatMap] at hx
      obtain ⟨f, _, hxf⟩ := hx
      exact symContribT_bounds f t x hxf
    have hsum := sum_contrib_bounds _ hb
    have hne : (fs.flatMap fun f => symContribT f t) ≠ [] := by
      intro hcontra
      rw [hcontra] at hemp
      simp at hemp
    rw [hr]
    exact ⟨hsum.1, hsum.2.1, hsum.2.2 hne⟩

theorem pctOf_bounds (p n : Nat) (h : p ≤ n) : 0 ≤ pctOf p n ∧ pctOf p n ≤ 100 := by
  unfold pctOf
  cases n with
  | zero =>
    have hp : p = 0 := by omega
    simp [hp]
  | succ n =>
    constructor
    · positivity
    · have h1 : (p : ℚ) / (n + 1 : Nat) ≤ 1 := by
        rw [div_le_one (by positivity)]
        exact_mod_cast h
      nlinarith

theorem guardedPct_bounds (a t : Nat) (h : a ≤ t) :
    0 ≤ guardedPct a t ∧ guardedPct a t ≤ 100 := by
  unfold guardedPct
  split
  · have h1 : (a : ℚ) / t ≤ 1 := by
      rw [div_le_one (by positivity)]
      exact_mod_cast h
    constructor
    · positivity
    · nlinarith
  · norm_num

/-! ## Merge characterisation of the CryptoCompare tally -/

theorem dictGet_pbStep_self (b : Breadth) (date : Nat) (c : ℚ) (e75 e200 : CellV) :
    dictGet (pbStep b date c e75 e200) date =
      some (((dictGet b date).getD (0, 0, 0, 0)) + pbQuad c e75 e200) := by
  simp only [pbStep]
  rw [dictGet_dictSet, if_pos rfl]
  congr 1
  simp only [pbQuad]
  split_ifs <;>
    simp_all [Prod.ext_iff, Prod.fst_add, Prod.snd_add]

theorem dictGet_pbStep_other (b : Breadth) (date : Nat) (c : ℚ) (e75 e200 : CellV)
    (d : Nat) (hne : ¬ d = date) :
    dictGet (pbStep b date c e75 e200) d = dictGet b d := by
  simp only [pbStep]
  rw [dictGet_dictSet, if_neg hne]

theorem dictGet_pbFold (idx : List Nat) (dates : List Nat) (closes : List ℚ)
    (e75s e200s : List CellV) (b : Breadth) (d : Nat) :
    dictGet (idx.foldl
      (fun acc i =>
        pbStep acc (dates.getD i 0) (closes.getD i 0)
          (e75s.getD i CellV.pyNone) (e200s.getD i CellV.pyNone)) b) d =
      mergeAt (dictGet b d)
        ((idx.filter fun i => dates.getD i 0 == d).map fun i =>
          pbQuad (closes.getD i 0) (e75s.getD i CellV.pyNone) (e200s.getD i CellV.pyNone)) := by
  induction idx generalizing b with
  | nil => simp [mergeAt]
  | cons i is ih =>
    have hstep : (i :: is).foldl
        (fun acc j =>
          pbStep acc (dates.getD j 0) (closes.getD j 0)
            (e75s.getD j CellV.pyNone) (e200s.getD j CellV.pyNone)) b =
        is.foldl
          (fun acc j =>
            pbStep acc (dates.getD j 0) (closes.getD j 0)
              (e75s.getD j CellV.pyNone) (e200s.getD j CellV.pyNone))
          (pbStep b (dates.getD i 0) (closes.getD i 0)
            (e75s.getD i CellV.pyNone) (e200s.getD i CellV.pyNone)) := rfl
    rw [hstep, ih]
    by_cases hm : dates.getD i 0 = d
    · have hfil : ((i :: is).filter fun j => dates.getD j 0 == d) =
          i :: (is.filter fun j => dates.getD j 0 == d) := by
        rw [List.filter_cons, if_pos (by simp only [beq_iff_eq]; exact hm)]
      rw [hfil, List.map_cons]
      rw [← hm, dictGet_pbStep_self, hm]
      cases hrem : is.filter fun j => dates.getD j 0 == d with
      | nil => simp [mergeAt]
      | cons z zs => simp [mergeAt, add_assoc]
    · have hfil : ((i :: is).filter fun j => dates.getD j 0 == d) =
          is.filter fun j => dates.getD j 0 == d := by
        rw [List.filter_cons, if_neg (by simp only [beq_iff_eq]; exact hm)]
      rw [hfil, dictGet_pbStep_other _ _ _ _ _ _ (by omega)]

theorem dictGet_process_base (b : Breadth) (times : List Nat) (closes : List ℚ) (d : Nat) :
    dictGet (process_base b times closes) d =
      mergeAt (dictGet b d) (histContrib (times, closes) d) := by
  simp only [process_base, histContrib]
  by_cases hg : closes.isEmpty || closes.length < 200
  · simp [hg, mergeAt]
  · simp only [hg, if_false, Bool.false_eq_true, pbLoop, pbContrib]
    exact dictGet_pbFold _ _ _ _ _ _ _

theorem dictGet_mainBreadth_fold (hists : List (List Nat × List ℚ)) (b : Breadth) (d : Nat) :
    dictGet (hists.foldl (fun acc h => process_base acc h.1 h.2) b) d =
      mergeAt (dictGet b d) (hists.flatMap fun h => histContrib h d) := by
  induction hists generalizing b with
  | nil => simp [mergeAt]
  | cons h hs ih =>
    have hstep : (h :: hs).foldl (fun acc hh => process_base acc hh.1 hh.2) b =
        hs.foldl (fun acc hh => process_base acc hh.1 hh.2) (process_base b h.1 h.2) := rfl
    rw [hstep, ih]
    have : process_base b h.1 h.2 = process_base b h.1 h.2 := rfl
    rw [show (dictGet (process_base b h.1 h.2) d) =
        mergeAt (dictGet b d) (histContrib (h.1, h.2) d) from dictGet_process_base b h.1 h.2 d]
    rw [mergeAt_append, List.flatMap_cons]

theorem dictGet_mainBreadth (hists : List (List Nat × List ℚ)) (d : Nat) :
    dictGet (mainBreadth hists) d =
      mergeAt none (hists.flatMap fun h => histContrib h d) := by
  have := dictGet_mainBreadth_fold hists [] d
  simpa [mainBreadth, dictGet] using this

/-! ## Bounds on the CryptoCompare tally -/

theorem pbQuad_bounds (c : ℚ) (e75 e200 : CellV) :
    (pbQuad c e75 e200).1 ≤ (pbQuad c e75 e200).2.1 ∧
      (pbQuad c e75 e200).2.2.1 ≤ (pbQuad c e75 e200).2.2.2 := by
  simp only [pbQuad]
  constructor <;> split_ifs <;> simp_all

theorem sum_quad_bounds (L : List BRow)
    (h : ∀ x ∈ L, x.1 ≤ x.2.1 ∧ x.2.2.1 ≤ x.2.2.2) :
    L.sum.1 ≤ L.sum.2.1 ∧ L.sum.2.2.1 ≤ L.sum.2.2.2 := by
  induction L with
  | nil => simp
  | cons x xs ih =>
    obtain ⟨hx1, hx2⟩ := h x (List.mem_cons_self x xs)
    have ihx := ih fun y hy => h y (List.mem_cons_of_mem x hy)
    simp only [List.sum_cons, Prod.fst_add, Prod.snd_add]
    exact ⟨by omega, by omega⟩

/-- Master invariant of the CryptoCompare breadth dict: in every stored row
the above-count of each bucket is at most its total. -/
theorem mainBreadth_entry_bounds (hists : List (List Nat × List ℚ)) (d : Nat) (r : BRow)
    (h : dictGet (mainBreadth hists) d = some r) :
    r.1 ≤ r.2.1 ∧ r.2.2.1 ≤ r.2.2.2 := by
  rw [dictGet_mainBreadth] at h
  by_cases hemp : (hists.flatMap fun hh => histContrib hh d).isEmpty
  · rw [mergeAt, if_pos hemp] at h
    cases h
  · rw [mergeAt, if_neg hemp] at h
    have hr : r = (hists.flatMap fun hh => histContrib hh d).sum := by
      have := Option.some_injective _ h
      simpa using this.symm
    have hb : ∀ x ∈ (hists.flatMap fun hh => histContrib hh d),
        x.1 ≤ x.2.1 ∧ x.2.2.1 ≤ x.2.2.2 := by
      intro x hx
      rw [List.mem_flatMap] at hx
      obtain ⟨hh, _, hxh⟩ := hx
      simp only [histContrib] at hxh
      by_cases hg : hh.2.isEmpty || hh.2.length < 200
      · simp [hg] at hxh
      · simp only [hg, if_false, Bool.false_eq_true, pbContrib, List.mem_map] at hxh
        obtain ⟨i, _, hxi⟩ := hxh
        subst hxi
        exact pbQuad_bounds _ _ _
    rw [hr]
    exact sum_quad_bounds _ hb

/-! ## First present value of the indicator -/

theorem list_getD_eq_get? {α : Type} (l : List α) (i : Nat) (d : α) :
    l.getD i d = (l.get? i).getD d := by
  induction l generalizing i with
  | nil => cases i <;> simp
  | cons x xs ih =>
    cases i with
    | zero => simp
    | succ i => simp [ih]

theorem emaIndicator_first (w : Nat) (closes : List ℚ) (hw : 1 ≤ w)
    (hlen : w ≤ closes.length) :
    (emaIndicator w closes).getD (w - 1) none = specFirstEma w closes := by
  cases closes with
  | nil => simp at hlen; omega
  | cons x xs =>
    rw [list_getD_eq_get?, emaIndicator, maskFirst_get?_self]
    cases hw1 : w - 1 with
    | zero =>
      simp [emaRaw, specFirstEma, hw1]
    | succ j =>
      have hj : j < xs.length := by
        simp only [List.length_cons] at hlen
        omega
      have hraw : (emaRaw (2 / (w + 1 : ℚ)) (x :: xs)).get? (j + 1) =
          (emaScan (2 / (w + 1 : ℚ)) x xs).get? j := by
        simp [emaRaw]
      rw [hraw, emaScan_get? _ _ _ _ hj]
      simp [specFirstEma, hw1]

/-! ## Output shape lemmas -/

theorem mem_sortedTimes (rows : Rows) (t : Nat) :
    t ∈ sortedTimes rows ↔ t ∈ rows.map Prod.fst :=
  (List.perm_insertionSort _ _).mem_iff

theorem csv_times_eq (rows : Rows) :
    (csv75 rows).map Prod.fst = (csv200 rows).map Prod.fst := by
  simp only [csv75, csv200, dailyFrame]
  split
  · simp
  · simp [List.map_map, Function.comp_def]

theorem csv75_times (rows : Rows) :
    (csv75 rows).map Prod.fst = if rows.isEmpty then [] else sortedTimes rows := by
  simp only [csv75, dailyFrame]
  split
  · simp
  · simp [List.map_map, Function.comp_def]

theorem sorted_sortedTimes (rows : Rows) : List.Sorted (· ≤ ·) (sortedTimes rows) :=
  List.sorted_insertionSort _ _

theorem csv75_sorted (rows : Rows) :
    List.Sorted (· ≤ ·) ((csv75 rows).map Prod.fst) := by
  rw [csv75_times]
  split
  · simp
  · exact sorted_sortedTimes rows

theorem mainSeries_times_eq (b : Breadth) (outStart : Nat) :
    (mainSeries b outStart).1.map Prod.fst = (mainSeries b outStart).2.map Prod.fst := by
  simp [mainSeries, List.map_map, Function.comp_def]

theorem mainSeries_times_sorted (b : Breadth) (outStart : Nat) :
    List.Sorted (· ≤ ·) ((mainSeries b outStart).1.map Prod.fst) := by
  have hsorted : List.Sorted (· ≤ ·)
      (List.insertionSort (· ≤ ·) ((b.map Prod.fst).filter fun d => outStart ≤ d)) :=
    List.sorted_insertionSort _ _
  have hmap : (mainSeries b outStart).1.map Prod.fst =
      (List.insertionSort (· ≤ ·) ((b.map Prod.fst).filter fun d => outStart ≤ d)).map
        (· * 86400000) := by
    simp [mainSeries, List.map_map, Function.comp_def]
  rw [hmap]
  exact List.Pairwise.map _ (fun a c h => Nat.mul_le_mul_right _ h) hsorted

theorem getD_replicate {α : Type} (n : Nat) (c : α) (i : Nat) (d : α) :
    (List.replicate n c).getD i d = if i < n then c else d := by
  induction n generalizing i with
  | zero => simp
  | succ n ih =>
    cases i with
    | zero => simp [List.replicate_succ]
    | succ i =>
      rw [List.replicate_succ, List.getD_cons_succ, ih i]
      by_cases h : i < n
      · rw [if_pos h, if_pos (by omega)]
      · rw [if_neg h, if_neg (by omega)]

/-! ## The claims -/

/-- C1 (corrected).  In the CoinGecko tally loop, a zipped row is folded
into the daily tally exactly when its ema200 cell is non-NaN, contributing
(1, a75, a200): the single increment of the shared total serves as
count-total for both the 75 and the 200 buckets, and the above-counters
take the respective flags — so ema75-only days are excluded there.  The
second conjunct shows ema200 is absent on every day before index 199.
(As stated over the whole repository the claim is false: in `process_base`
each indicator is gated independently on its own padded array, so
ema75-only days do enter the 75 tally — see the counterexample.) -/
theorem claim1_tally_gated_on_ema200 :
    (∀ (rows : Rows) (ss : List Sample) (t : Nat),
      dictGet (tallySamples rows ss) t = mergeAt (dictGet rows t) (contribT ss t)) ∧
    (∀ (closes : List ℚ) (i : Nat), i + 1 < 200 →
      (emaIndicator 200 closes).getD i none = none) :=
  ⟨fun rows ss t => dictGet_tallySamples ss rows t,
   fun closes i hi => maskFirst_getD_of_lt (200 - 1) _ i (by omega)⟩

/-- Witness for C1: a single gated row at timestamp 5 enters the tally as
described, and day 0 of a one-day series has no ema200. -/
theorem claim1_witness :
    dictGet (tallySamples [] [⟨5, 1, 0, some 2⟩]) 5 =
      mergeAt (dictGet ([] : Rows) 5) (contribT [⟨5, 1, 0, some 2⟩] 5) ∧
    (emaIndicator 200 [1]).getD 0 none = none :=
  ⟨claim1_tally_gated_on_ema200.1 [] [⟨5, 1, 0, some 2⟩] 5,
   claim1_tally_gated_on_ema200.2 [1] 0 (by norm_num)⟩

/-- Counterexample to C1 as stated: on a 200-day constant series,
`process_base` gives day 74 the row (a75, t75, a200, t200) = (0, 1, 0, 0) —
the day is counted in the 75 tally (t75 = 1) although its ema200 is absent
(the padded ema200 cell at index 74 is None, and the true ema200 of day 74
is undefined), so an ema75-only day is not excluded from both tallies. -/
theorem claim1_counterexample :
    dictGet (process_base [] times200 ones200) 74 = some (0, 1, 0, 0) ∧
    (pad_ema (emaCells 200 ones200) 200).getD 74 CellV.pyNone = CellV.pyNone ∧
    (emaIndicator 200 ones200).getD 74 none = none :=
  ⟨by with_unfolding_all rfl, by with_unfolding_all rfl, by with_unfolding_all rfl⟩

/-- C2 (corrected).  For every window w ≥ 1 the indicator column has the
length of the close series, its first w - 1 entries are absent, and — when
the series has at least w entries — exactly length - w + 1 entries are
present and the first present entry equals the adjust-False recurrence over
the first w closes seeded at the first close (not the arithmetic mean of
the first w closes, which the claim asserted — see the counterexample). -/
theorem claim2_ema_warmup_shape :
    ∀ (w : Nat) (closes : List ℚ), 1 ≤ w →
      (emaIndicator w closes).length = closes.length ∧
      (∀ i, i < w - 1 → (emaIndicator w closes).getD i none = none) ∧
      (w ≤ closes.length →
        (emaIndicator w closes).countP (fun e => e.isSome) = closes.length - w + 1 ∧
        (emaIndicator w closes).getD (w - 1) none = specFirstEma w closes) := by
  intro w closes hw
  refine ⟨emaIndicator_length w closes,
    fun i hi => maskFirst_getD_of_lt (w - 1) _ i hi,
    fun hlen => ⟨?_, emaIndicator_first w closes hw hlen⟩⟩
  have hc : (emaIndicator w closes).countP (fun e => e.isSome) =
      (emaRaw (2 / (w + 1 : ℚ)) closes).length - (w - 1) :=
    maskFirst_countP (w - 1) _
  rw [hc, emaRaw_length]
  omega

/-- Witness for C2 at w = 75 on a concrete 75-day series. -/
theorem claim2_witness :
    (emaIndicator 75 c2closes).countP (fun e => e.isSome) = c2closes.length - 75 + 1 ∧
    (emaIndicator 75 c2closes).getD (75 - 1) none = specFirstEma 75 c2closes :=
  (claim2_ema_warmup_shape 75 c2closes (by norm_num)).2.2
    (by simp [c2closes])

/-- Counterexample to C2 as stated: on the 75-day series 1, 0, ..., 0 the
first present ema75 entry is (37/38) ^ 74 (the recurrence seeded at the
first close), not the arithmetic mean 1/75 of the first 75 closes. -/
theorem claim2_counterexample :
    c2closes.length = 75 ∧
    ¬ ((emaIndicator 75 c2closes).getD (75 - 1) none =
      some (arithMean (c2closes.take 75))) :=
  ⟨by with_unfolding_all rfl, of_decide_eq_true (by with_unfolding_all rfl)⟩

/-- C3 (corrected).  In the CoinGecko variant the final output has an entry
for a timestamp iff the tally stores a row there with positive count-total,
and every stored row has positive count-total (so the unguarded division
never divides by zero).  (As stated over the whole repository the claim is
false: the CryptoCompare `main` creates breadth rows for every date of
every qualifying symbol — even dates where both EMAs are absent — and
emits them with a synthetic 0.0 percentage; see the counterexample.) -/
theorem claim3_output_iff_count_positive :
    (∀ (fs : List FetchOutcome) (t : Nat),
      t ∈ (csv75 (tallyRun fs)).map Prod.fst ↔
        ∃ r : MRow, dictGet (tallyRun fs) t = some r ∧ 0 < r.1) ∧
    (∀ (fs : List FetchOutcome) (t : Nat) (r : MRow),
      dictGet (tallyRun fs) t = some r → 0 < r.1) := by
  constructor
  · intro fs t
    rw [csv75_times]
    by_cases hemp : (tallyRun fs).isEmpty
    · have hnil : tallyRun fs = [] := by
        cases h : tallyRun fs
        · rfl
        · rw [h] at hemp
          simp at hemp
      simp [hemp, hnil, dictGet]
    · rw [if_neg hemp, mem_sortedTimes]
      constructor
      · intro hmem
        have hsome : (dictGet (tallyRun fs) t).isSome = true :=
          (dictGet_isSome_iff_mem _ _).mpr hmem
        obtain ⟨r, hr⟩ := Option.isSome_iff_exists.mp hsome
        exact ⟨r, hr, by
          have := tallyRun_entry_bounds fs t r hr
          omega⟩
      · rintro ⟨r, hr, _⟩
        refine (dictGet_isSome_iff_mem _ _).mp ?_
        rw [hr]
        rfl
  · intro fs t r hr
    have := tallyRun_entry_bounds fs t r hr
    omega

/-- Witness for C3: the constant 200-day symbol stores the row (1, 0, 0) at
timestamp 199 — a positive count-total. -/
theorem claim3_witness :
    dictGet (tallyRun [FetchOutcome.ok constHist200]) 199 = some (1, 0, 0) ∧
    0 < (1, 0, 0).1 := by
  have h : dictGet (tallyRun [FetchOutcome.ok constHist200]) 199 = some (1, 0, 0) := by
    with_unfolding_all rfl
  exact ⟨h, claim3_output_iff_count_positive.2 [FetchOutcome.ok constHist200] 199 (1, 0, 0) h⟩

/-- Counterexample to C3 as stated: in the CryptoCompare variant a single
constant symbol starting 2024-01-01 makes the output's first emitted row
the pair (2024-01-01, 0.0) although the breadth row of that day is
(0, 0, 0, 0) — count-total is zero for both buckets, yet the timestamp is
emitted with a synthetic zero percentage rather than omitted. -/
theorem claim3_counterexample :
    (mainSeries (mainBreadth [(times2024, ones200)]) OUTPUT_START_DAY).1.head? =
      some (OUTPUT_START_DAY * 86400000, 0) ∧
    dictGet (mainBreadth [(times2024, ones200)]) OUTPUT_START_DAY = some (0, 0, 0, 0) :=
  ⟨by with_unfolding_all rfl, by with_unfolding_all rfl⟩

/-- C4 (confirmed).  In every stored tally row of either variant the
above-count of each bucket is at most its count-total, and both emitted
percentages lie in [0, 100]. -/
theorem claim4_above_le_total_pct_bounds :
    (∀ (fs : List FetchOutcome) (t : Nat) (r : MRow),
      dictGet (tallyRun fs) t = some r →
        r.2.1 ≤ r.1 ∧ r.2.2 ≤ r.1 ∧
        0 ≤ pctOf r.2.1 r.1 ∧ pctOf r.2.1 r.1 ≤ 100 ∧
        0 ≤ pctOf r.2.2 r.1 ∧ pctOf r.2.2 r.1 ≤ 100) ∧
    (∀ (hists : List (List Nat × List ℚ)) (d : Nat) (r : BRow),
      dictGet (mainBreadth hists) d = some r →
        r.1 ≤ r.2.1 ∧ r.2.2.1 ≤ r.2.2.2 ∧
        0 ≤ guardedPct r.1 r.2.1 ∧ guardedPct r.1 r.2.1 ≤ 100 ∧
        0 ≤ guardedPct r.2.2.1 r.2.2.2 ∧ guardedPct r.2.2.1 r.2.2.2 ≤ 100) := by
  constructor
  · intro fs t r hr
    obtain ⟨h1, h2, _⟩ := tallyRun_entry_bounds fs t r hr
    obtain ⟨h3, h4⟩ := pctOf_bounds r.2.1 r.1 h1
    obtain ⟨h5, h6⟩ := pctOf_bounds r.2.2 r.1 h2
    exact ⟨h1, h2, h3, h4, h5, h6⟩
  · intro hists d r hr
    obtain ⟨h1, h2⟩ := mainBreadth_entry_bounds hists d r hr
    obtain ⟨h3, h4⟩ := guardedPct_bounds r.1 r.2.1 h1
    obtain ⟨h5, h6⟩ := guardedPct_bounds r.2.2.1 r.2.2.2 h2
    exact ⟨h1, h2, h3, h4, h5, h6⟩

/-- Witness for C4 on concrete stored rows of both variants. -/
theorem claim4_witness :
    dictGet (tallyRun [FetchOutcome.ok constHist200]) 199 = some (1, 0, 0) ∧
    dictGet (mainBreadth [(times200, ones200)]) 74 = some (0, 1, 0, 0) ∧
    pctOf 0 1 ≤ 100 ∧ guardedPct 0 1 ≤ 100 := by
  have h1 : dictGet (tallyRun [FetchOutcome.ok constHist200]) 199 = some (1, 0, 0) := by
    with_unfolding_all rfl
  have h2 : dictGet (mainBreadth [(times200, ones200)]) 74 = some (0, 1, 0, 0) := by
    with_unfolding_all rfl
  exact ⟨h1, h2,
    (claim4_above_le_total_pct_bounds.1 _ _ _ h1).2.2.2.1,
    (claim4_above_le_total_pct_bounds.2 _ _ _ h2).2.2.2.1⟩

/-- C5 (confirmed).  Folding the per-symbol contributions into the daily
tally is order-independent in both variants: permuting the list of fetched
symbols leaves the tally mapping pointwise unchanged. -/
theorem claim5_tally_merge_order_independent :
    (∀ fs1 fs2 : List FetchOutcome, fs1.Perm fs2 →
      ∀ t, dictGet (tallyRun fs1) t = dictGet (tallyRun fs2) t) ∧
    (∀ h1 h2 : List (List Nat × List ℚ), h1.Perm h2 →
      ∀ d, dictGet (mainBreadth h1) d = dictGet (mainBreadth h2) d) := by
  constructor
  · intro fs1 fs2 hperm t
    rw [dictGet_tallyRun, dictGet_tallyRun]
    exact mergeAt_perm none (hperm.flatMap_right _)
  · intro h1 h2 hperm d
    rw [dictGet_mainBreadth, dictGet_mainBreadth]
    exact mergeAt_perm none (hperm.flatMap_right _)

/-- Witness for C5 on a concrete two-element swap in each variant. -/
theorem claim5_witness :
    dictGet (tallyRun [FetchOutcome.noId, FetchOutcome.ok []]) 0 =
      dictGet (tallyRun [FetchOutcome.ok [], FetchOutcome.noId]) 0 ∧
    dictGet (mainBreadth [([], []), ([0], [1])]) 0 =
      dictGet (mainBreadth [([0], [1]), ([], [])]) 0 :=
  ⟨claim5_tally_merge_order_independent.1 _ _
      (List.Perm.swap (FetchOutcome.ok []) FetchOutcome.noId []) 0,
   claim5_tally_merge_order_independent.2 _ _
      (List.Perm.swap ([0], [1]) ([], []) []) 0⟩

/-- C6 (corrected).  In the CoinGecko variant the 0/1 above flag is 1 iff
the close is strictly greater than the present EMA value, is 0 at equality
(strict boundary), and is 0 whenever the EMA cell is NaN; consequently a
symbol with constant close contributes zero to both above-counters on every
day.  (As stated the claim is false for `process_base`: its double-padded
arrays shift the EMA columns, so the above decision there can compare the
close against NaN or against an earlier day's EMA even though that day's
EMA is present — see the counterexample.) -/
theorem claim6_above_flag_strict :
    (∀ c v : ℚ, aboveInt c (some v) = 1 ↔ v < c) ∧
    (∀ c : ℚ, aboveInt c (some c) = 0) ∧
    (∀ c : ℚ, aboveInt c none = 0) ∧
    (∀ (times : List Nat) (n : Nat) (c : ℚ),
      ∀ s ∈ mkSamples times (List.replicate n c), s.a75 = 0 ∧ s.a200 = 0) := by
  refine ⟨?_, ?_, ?_, ?_⟩
  · intro c v
    by_cases h : v < c <;> simp [aboveInt, h]
  · intro c
    simp [aboveInt]
  · intro c
    simp [aboveInt]
  · intro times n c s hs
    simp only [mkSamples, mkSamplesWith, List.mem_map] at hs
    obtain ⟨i, _, hfi⟩ := hs
    subst hfi
    constructor
    · show aboveInt ((List.replicate n c).getD i 0)
        ((emaIndicator 75 (List.replicate n c)).getD i none) = 0
      rw [emaIndicator_replicate_getD]
      by_cases hcase : i < 75 - 1 ∨ n ≤ i
      · rw [if_pos hcase]
        simp [aboveInt]
      · rw [if_neg hcase, getD_replicate, if_pos (by omega)]
        simp [aboveInt]
    · show aboveInt ((List.replicate n c).getD i 0)
        ((emaIndicator 200 (List.replicate n c)).getD i none) = 0
      rw [emaIndicator_replicate_getD]
      by_cases hcase : i < 200 - 1 ∨ n ≤ i
      · rw [if_pos hcase]
        simp [aboveInt]
      · rw [if_neg hcase, getD_replicate, if_pos (by omega)]
        simp [aboveInt]

/-- Witness for C6: the single row of a one-day constant symbol has both
above flags zero. -/
theorem claim6_witness :
    (⟨7, 0, 0, none⟩ : Sample) ∈ mkSamples [7] (List.replicate 1 (5 : ℚ)) ∧
    (⟨7, 0, 0, none⟩ : Sample).a75 = 0 ∧ (⟨7, 0, 0, none⟩ : Sample).a200 = 0 := by
  have hmem : (⟨7, 0, 0, none⟩ : Sample) ∈ mkSamples [7] (List.replicate 1 (5 : ℚ)) := by
    with_unfolding_all decide
  obtain ⟨h1, h2⟩ := claim6_above_flag_strict.2.2.2 [7] 1 5 _ hmem
  exact ⟨hmem, h1, h2⟩

/-- Counterexample to C6 as stated: on the spike series, day 74's close is
2 and its ema75 is present (39/38 < 2), so the claimed flag is true; but
`process_base` reads the shifted padded array, whose cell at index 74 is
NaN, computes close > NaN = False, and tallies the day as
(a75, t75, a200, t200) = (0, 1, 0, 0): counted without being above. -/
theorem claim6_counterexample :
    spike200.getD 74 0 = 2 ∧
    (emaIndicator 75 spike200).getD 74 none = some (39 / 38) ∧
    ((39 : ℚ) / 38 < 2) ∧
    (pad_ema (emaCells 75 spike200) 75).getD 74 CellV.pyNone = CellV.pyNaN ∧
    cGT (spike200.getD 74 0) ((pad_ema (emaCells 75 spike200) 75).getD 74 CellV.pyNone) = false ∧
    dictGet (process_base [] times200 spike200) 74 = some (0, 1, 0, 0) :=
  ⟨by with_unfolding_all rfl, by with_unfolding_all rfl,
   of_decide_eq_true (by with_unfolding_all rfl), by with_unfolding_all rfl,
   by with_unfolding_all rfl, by with_unfolding_all rfl⟩

/-- C7 (confirmed).  In both variants a fetched history shorter than 200
days (the empty frame included) is skipped before indicator computation:
removing it from the symbol list leaves the entire tally unchanged,
wherever it occurs, so it contributes to no counter on any day and the
other symbols' contributions are unaffected.  The first conjunct covers
the CoinGecko symbol loop, the second the CryptoCompare
`pool.map(process_base, bases)` accumulation. -/
theorem claim7_short_history_skipped :
    (∀ (l1 l2 : List FetchOutcome) (h : List (Nat × ℚ)), h.length < 200 →
      tallyRun (l1 ++ FetchOutcome.ok h :: l2) = tallyRun (l1 ++ l2)) ∧
    (∀ (l1 l2 : List (List Nat × List ℚ)) (times : List Nat) (closes : List ℚ),
      closes.length < 200 →
      mainBreadth (l1 ++ (times, closes) :: l2) = mainBreadth (l1 ++ l2)) := by
  constructor
  · intro l1 l2 h hlen
    unfold tallyRun
    rw [List.foldl_append, List.foldl_append, List.foldl_cons]
    have hskip : symbolStep (List.foldl symbolStep [] l1) (FetchOutcome.ok h) =
        List.foldl symbolStep [] l1 := by
      simp [symbolStep, hlen]
    rw [hskip]
  · intro l1 l2 times closes hlen
    unfold mainBreadth
    rw [List.foldl_append, List.foldl_append, List.foldl_cons]
    have hskip : process_base
        (List.foldl (fun b h => process_base b h.1 h.2) [] l1) times closes =
        List.foldl (fun b h => process_base b h.1 h.2) [] l1 := by
      simp [process_base, hlen]
    exact congrArg
      (fun x => List.foldl (fun b h => process_base b h.1 h.2) x l2) hskip

/-- Witness for C7: a one-day history is skipped by both variants. -/
theorem claim7_witness :
    [((0 : Nat), (1 : ℚ))].length < 200 ∧
    tallyRun [FetchOutcome.ok [((0 : Nat), (1 : ℚ))]] = tallyRun [] ∧
    mainBreadth [([0], [(1 : ℚ)])] = mainBreadth [] :=
  ⟨by norm_num,
   claim7_short_history_skipped.1 [] [] [((0 : Nat), (1 : ℚ))] (by norm_num),
   claim7_short_history_skipped.2 [] [] [0] [(1 : ℚ)] (by norm_num)⟩

/-- C8 (corrected).  The CoinGecko variant aborts — before any fetching or
file writing — when the stablecoin filter leaves no symbol.  (As stated
over the whole repository the claim is false: the CryptoCompare `main` has
no empty-universe abort and completes the run, writing both output files
with only their header rows — see the counterexample.) -/
theorem claim8_empty_universe_aborts :
    ∀ (allBases : List String) (fetchFor : String → FetchOutcome),
      (allBases.filter fun b => !(STABLES_CG.contains b)).isEmpty = true →
      cgRun allBases fetchFor = Except.error "No symbols left after filtering; aborting." := by
  intro allBases fetchFor hemp
  simp only [cgRun, hemp]
  rfl

/-- Witness for C8: a universe containing only the stablecoin USDT is
filtered to nothing and the run aborts. -/
theorem claim8_witness :
    ((["USDT"].filter fun b => !(STABLES_CG.contains b)).isEmpty = true) ∧
    cgRun ["USDT"] (fun _ => FetchOutcome.noId) =
      Except.error "No symbols left after filtering; aborting." := by
  have h : (["USDT"].filter fun b => !(STABLES_CG.contains b)).isEmpty = true := by decide
  exact ⟨h, claim8_empty_universe_aborts ["USDT"] (fun _ => FetchOutcome.noId) h⟩

/-- Counterexample to C8 as stated: with an empty universe the
CryptoCompare `main` still completes and produces (header-only) output
files instead of aborting. -/
theorem claim8_counterexample :
    mainRun [] (fun _ => ([], [])) = Except.ok ([], []) := by
  with_unfolding_all rfl

/-- C9 (corrected).  `fetch_historical_prices_usd` retries a 429 exactly
once after a longer (5 s) pause: if the retry returns a JSON 200 the call
succeeds with the retried payload and no error; if the retry is again 429
the call fails for this provider; and no call ever issues more than two
requests.  (As stated over the whole repository the claim is false:
`fetch_history_from_cc` does not retry a 429 at all — it returns the empty
frame after a single request, with no pause and no error, so the symbol is
silently skipped — see the counterexample.) -/
theorem claim9_rate_limit_retry :
    (∀ r1 r2 : CGResp, r1.status = 429 → r2.status = 200 → r2.jsonCT = true →
      fetch_historical_prices_usd r1 r2 = (Except.ok (dailyLast r2.prices), 2)) ∧
    (∀ r1 r2 : CGResp, r1.status = 429 → r2.status = 429 →
      fetch_historical_prices_usd r1 r2 = (Except.error FetchErr.ratePersisted, 2)) ∧
    (∀ r1 r2 : CGResp, (fetch_historical_prices_usd r1 r2).2 ≤ 2) := by
  refine ⟨?_, ?_, ?_⟩
  · intro r1 r2 h1 h2 h3
    simp [fetch_historical_prices_usd, h1, h2, h3]
  · intro r1 r2 h1 h2
    simp [fetch_historical_prices_usd, h1, h2]
  · intro r1 r2
    unfold fetch_historical_prices_usd raiseForStatus
    split_ifs <;> simp

/-- Witness for C9: a 429 followed by a JSON 200 succeeds with the retried
payload after two requests. -/
theorem claim9_witness :
    (⟨429, false, []⟩ : CGResp).status = 429 ∧
    fetch_historical_prices_usd ⟨429, false, []⟩ ⟨200, true, [(0, 1)]⟩ =
      (Except.ok (dailyLast [(0, 1)]), 2) :=
  ⟨rfl, claim9_rate_limit_retry.1 ⟨429, false, []⟩ ⟨200, true, [(0, 1)]⟩ rfl rfl rfl⟩

/-- Counterexample to C9 as stated: `fetch_history_from_cc` answers a 429
with the empty frame after exactly one request — no retry, no longer
pause, no failure raised. -/
theorem claim9_counterexample :
    fetch_history_from_cc ⟨false, 429, true, [(86400, 5)]⟩ = ([], 1) := by
  with_unfolding_all rfl

/-- C10 (confirmed).  In both variants the two emitted series share the
same timestamp column: the 75 and 200 outputs carry exactly the same
timestamps, in the same ascending order, row for row. -/
theorem claim10_series_aligned :
    (∀ rows : Rows,
      (csv75 rows).map Prod.fst = (csv200 rows).map Prod.fst ∧
      List.Sorted (· ≤ ·) ((csv75 rows).map Prod.fst)) ∧
    (∀ (b : Breadth) (outStart : Nat),
      (mainSeries b outStart).1.map Prod.fst = (mainSeries b outStart).2.map Prod.fst ∧
      List.Sorted (· ≤ ·) ((mainSeries b outStart).1.map Prod.fst)) :=
  ⟨fun rows => ⟨csv_times_eq rows, csv75_sorted rows⟩,
   fun b o => ⟨mainSeries_times_eq b o, mainSeries_times_sorted b o⟩⟩
